import Mathlib

/-!
Verification of the core ledger engine of a small peer-to-peer blockchain
node (files blockchain.py, block.py, transaction.py, portfolio.py,
blockchain_node.py).

The embedding is shallow: Python classes become Lean structures, methods
become pure functions, and in-place mutation becomes explicit state passing.
The SHA-256 digest is treated as an abstract function `H : String → String`
threaded through every definition; theorems that need collision freedom take
`Function.Injective H` as a hypothesis.  Python `None` fields (`hash`,
`signature`, and the `previous_hash` slot, which receives another block's
possibly-unset hash) are `Option String`.  Python numbers are `Int` (amounts,
fees, timestamps) and `Nat` (indices, nonces).  The unbounded proof-of-work
loop is given explicit fuel and returns `Option`.
-/

namespace BlockchainModel


/-- Little-endian decimal digits of `n`, with structural fuel so that the
kernel can evaluate it (`fuel ≥ n` suffices). -/
def natDigits : Nat → Nat → List Nat
  | 0, _ => []
  | _, 0 => []
  | f + 1, n + 1 => ((n + 1) % 10) :: natDigits f ((n + 1) / 10)

/-- Recombine little-endian decimal digits. -/
def fromDigits : List Nat → Nat
  | [] => 0
  | d :: ds => d + 10 * fromDigits ds

/-- Decimal rendering of a natural number, as Python's `str` produces it. -/
def natStr (n : Nat) : String :=
  if n = 0 then "0" else String.mk (((natDigits n n).map Nat.digitChar).reverse)

/-- Decimal rendering of an integer. -/
def intStr (i : Int) : String :=
  if i < 0 then "-" ++ natStr i.natAbs else natStr i.natAbs

/-- How a Python f-string renders an optional string field (`None` prints as
`"None"`). -/
def optStr : Option String → String
  | some s => s
  | none => "None"

/-- transaction.py `Transaction`: `id` and `timestamp` are assigned at
construction (uuid4 / time.time()), `signature` starts as `None`. -/
structure Transaction where
  id : String
  sender : String
  recipient : String
  amount : Int
  fee : Int
  timestamp : Int
  signature : Option String
deriving DecidableEq

/-- `Transaction.__init__(sender, recipient, amount, fee=0)`; the fresh uuid
and the current time are passed explicitly. -/
def Transaction.create (id : String) (ts : Int) (sender recipient : String)
    (amount fee : Int) : Transaction :=
  { id := id, sender := sender, recipient := recipient, amount := amount,
    fee := fee, timestamp := ts, signature := none }

/-- The dictionary produced by `Transaction.to_dict` (same fields). -/
structure TxDict where
  id : String
  sender : String
  recipient : String
  amount : Int
  fee : Int
  timestamp : Int
  signature : Option String
deriving DecidableEq

def Transaction.to_dict (t : Transaction) : TxDict :=
  { id := t.id, sender := t.sender, recipient := t.recipient,
    amount := t.amount, fee := t.fee, timestamp := t.timestamp,
    signature := t.signature }

/-- The string `f"{sender}{recipient}{amount}{timestamp}"` hashed by
`sign_transaction`. -/
def txSignString (t : Transaction) : String :=
  t.sender ++ t.recipient ++ intStr t.amount ++ intStr t.timestamp

/-- `Transaction.sign_transaction`: stores the digest of the sign string. -/
def Transaction.sign_transaction (H : String → String) (t : Transaction) : Transaction :=
  { t with signature := some (H (txSignString t)) }

/-- Stands for `json.dumps(tx.to_dict())`, the per-transaction serialization
hashed into the Merkle tree (an injective rendering of the dict). -/
def jsonOfTxDict (d : TxDict) : String :=
  "\x7b" ++ "id:" ++ d.id ++ ",sender:" ++ d.sender ++ ",recipient:" ++ d.recipient
    ++ ",amount:" ++ intStr d.amount ++ ",fee:" ++ intStr d.fee
    ++ ",timestamp:" ++ intStr d.timestamp ++ ",signature:" ++ optStr d.signature ++ "\x7d"

/-- block.py `Block`: `hash` starts as `None`; `previous_hash` holds whatever
value was passed (another block's possibly-unset hash, or `"0"`). -/
structure Block where
  index : Nat
  timestamp : Int
  transactions : List Transaction
  previous_hash : Option String
  miner_address : String
  nonce : Nat
  hash : Option String
  merkle_root : String
deriving DecidableEq

/-- One pairing pass of `calculate_merkle_root`'s inner list comprehension:
hash the concatenation of each adjacent pair (the input has even length at
every call site). -/
def merklePairs (H : String → String) : List String → List String
  | a :: b :: rest => H (a ++ b) :: merklePairs H rest
  | l => l

/-- One iteration of the `while len(tx_hashes) > 1` loop: duplicate the last
hash when the count is odd, then pair. -/
def merkleLevel (H : String → String) (l : List String) : List String :=
  merklePairs H (if l.length % 2 = 1 then l ++ [l.getLastD ""] else l)

/-- The `while len(tx_hashes) > 1` reduction loop of `calculate_merkle_root`,
with structural fuel so the kernel can evaluate it.  Each level strictly
shrinks the list (`merkleLevel_length_lt`), so fuel equal to the list length
never runs out; the fuel-exhausted branch is unreachable at the wrapper's
call. -/
def merkleFoldAux (H : String → String) : Nat → List String → String
  | _, [] => ""
  | _, [h] => h
  | 0, _ :: _ :: _ => ""
  | f + 1, a :: b :: rest => merkleFoldAux H f (merkleLevel H (a :: b :: rest))

def merkleFold (H : String → String) (l : List String) : String :=
  merkleFoldAux H l.length l

/-- `Block.calculate_merkle_root`. -/
def calculate_merkle_root (H : String → String) (txs : List Transaction) : String :=
  if txs = [] then "0"
  else merkleFold H (txs.map fun t => H (jsonOfTxDict t.to_dict))

/-- The f-string `f"{index}{timestamp}{previous_hash}{merkle_root}{nonce}"`
hashed by `Block.calculate_hash`. -/
def blockString (b : Block) : String :=
  natStr b.index ++ intStr b.timestamp ++ optStr b.previous_hash
    ++ b.merkle_root ++ natStr b.nonce

/-- `Block.calculate_hash`. -/
def Block.calculate_hash (b : Block) (H : String → String) : String :=
  H (blockString b)

/-- `Block.__init__(index, transactions, previous_hash, miner_address)`; the
current time is passed explicitly.  Nonce 0, hash unset, Merkle root computed
once here. -/
def Block.create (H : String → String) (ts : Int) (index : Nat)
    (transactions : List Transaction) (previous_hash : Option String)
    (miner_address : String) : Block :=
  { index := index, timestamp := ts, transactions := transactions,
    previous_hash := previous_hash, miner_address := miner_address,
    nonce := 0, hash := none,
    merkle_root := calculate_merkle_root H transactions }

/-- The proof-of-work target `"0" * difficulty`. -/
def mtarget (difficulty : Nat) : String :=
  String.mk (List.replicate difficulty '0')

/-- Python's `str.startswith`, character-wise. -/
def strStartsWith (p s : String) : Bool :=
  p.data.isPrefixOf s.data

/-- The loop guard of `mine_block`, negated: the stored hash is set and starts
with the target. -/
def hashMeetsTarget (difficulty : Nat) : Option String → Bool
  | none => false
  | some h => strStartsWith (mtarget difficulty) h

/-- `Block.mine_block(difficulty)`: repeatedly bump the nonce and recompute the
hash until it starts with the target.  The Python loop is unbounded; here it
gets explicit fuel and returns `none` when the fuel runs out. -/
def Block.mine_block (H : String → String) (difficulty : Nat) :
    Nat → Block → Option Block
  | 0, b => if hashMeetsTarget difficulty b.hash then some b else none
  | fuel + 1, b =>
    if hashMeetsTarget difficulty b.hash then some b
    else
      let b' : Block := { b with nonce := b.nonce + 1 }
      Block.mine_block H difficulty fuel { b' with hash := some (b'.calculate_hash H) }

/-- The dictionary produced by `Block.to_dict`. -/
structure BlockDict where
  index : Nat
  timestamp : Int
  transactions : List TxDict
  previous_hash : Option String
  miner_address : String
  nonce : Nat
  hash : Option String
  merkle_root : String
deriving DecidableEq

def Block.to_dict (b : Block) : BlockDict :=
  { index := b.index, timestamp := b.timestamp,
    transactions := b.transactions.map Transaction.to_dict,
    previous_hash := b.previous_hash, miner_address := b.miner_address,
    nonce := b.nonce, hash := b.hash, merkle_root := b.merkle_root }

/-- Rebuilding a transaction from its dict, as both
`Blockchain.dict_chain_to_objects` and the broadcast endpoints do: the
constructor's fresh id/timestamp are immediately overwritten by the dict's
values, so the result is exactly the dict's fields. -/
def dictToTx (d : TxDict) : Transaction :=
  { id := d.id, sender := d.sender, recipient := d.recipient,
    amount := d.amount, fee := d.fee, timestamp := d.timestamp,
    signature := d.signature }

/-- Rebuilding a block from its dict (`dict_chain_to_objects` body, also used
by `receive_block`): the constructor's computed merkle root, zero nonce and
unset hash are all immediately overwritten by the dict's values. -/
def dictToBlock (d : BlockDict) : Block :=
  { index := d.index, timestamp := d.timestamp,
    transactions := d.transactions.map dictToTx,
    previous_hash := d.previous_hash, miner_address := d.miner_address,
    nonce := d.nonce, hash := d.hash, merkle_root := d.merkle_root }

/-- blockchain.py `Blockchain`: the in-memory ledger state the claims are
about.  The node id, peer set and on-disk files play no part in the claimed
behavior and are not modelled. -/
structure Blockchain where
  chain : List Block
  pending_transactions : List Transaction
  difficulty : Nat
  mining_reward : Int
deriving DecidableEq

/-- `Blockchain.create_genesis_block`: `Block(0, [], "0", "genesis")` with its
hash computed directly (no proof-of-work). -/
def create_genesis_block (H : String → String) (ts : Int) : Block :=
  let g := Block.create H ts 0 [] (some "0") "genesis"
  { g with hash := some (g.calculate_hash H) }

/-- The fresh state `Blockchain.__init__` builds when no saved chain exists:
genesis-only chain, empty pool, difficulty 4, mining reward 50. -/
def initialBlockchain (H : String → String) (ts : Int) : Blockchain :=
  { chain := [create_genesis_block H ts], pending_transactions := [],
    difficulty := 4, mining_reward := 50 }

/-- `Blockchain.get_latest_block` (`self.chain[-1]`; raises on an empty chain,
hence `Option`). -/
def get_latest_block (bc : Blockchain) : Option Block :=
  bc.chain.getLast?

/-- portfolio.py `Portfolio.get_balance`: full replay over the chain; each
transaction debits its sender by amount+fee and credits its recipient by
amount, and every block additionally credits its miner with the CURRENT
`mining_reward`. -/
def get_balance (bc : Blockchain) (address : String) : Int :=
  bc.chain.foldl
    (fun bal block =>
      let bal := block.transactions.foldl
        (fun bal t =>
          let bal := if t.sender = address then bal - (t.amount + t.fee) else bal
          if t.recipient = address then bal + t.amount else bal)
        bal
      if block.miner_address = address then bal + bc.mining_reward else bal)
    0

/-- `Blockchain.validate_transaction`. -/
def validate_transaction (bc : Blockchain) (t : Transaction) : Bool :=
  if t.sender = t.recipient then false
  else if t.amount ≤ 0 then false
  else if t.sender ≠ "genesis" then
    if get_balance bc t.sender < t.amount + t.fee then false else true
  else true

/-- `Blockchain.add_transaction`: validate, sign in place, append to the
pending pool; returns the new state and whether the transaction was accepted. -/
def add_transaction (H : String → String) (bc : Blockchain) (t : Transaction) :
    Blockchain × Bool :=
  if validate_transaction bc t then
    ({ bc with pending_transactions :=
        bc.pending_transactions ++ [t.sign_transaction H] }, true)
  else (bc, false)

/-- `Blockchain.mine_pending_transactions(mining_reward_address)`: build and
sign the reward transaction, assemble the block over pool+reward at the next
index linked to the tip, mine it, append it, clear the pool.  The fresh uuid
and timestamps of the reward transaction and block are passed explicitly, as
is the proof-of-work fuel. -/
def mine_pending_transactions (H : String → String) (bc : Blockchain)
    (mining_reward_address rid : String) (rts bts : Int) (fuel : Nat) :
    Option (Blockchain × Block) :=
  match bc.chain.getLast? with
  | none => none
  | some tip =>
    let reward := Transaction.sign_transaction H
      (Transaction.create rid rts "genesis" mining_reward_address bc.mining_reward 0)
    let transactions_to_mine := bc.pending_transactions ++ [reward]
    let block := Block.create H bts bc.chain.length transactions_to_mine
      tip.hash mining_reward_address
    match Block.mine_block H bc.difficulty fuel block with
    | none => none
    | some mined =>
      some ({ bc with chain := bc.chain ++ [mined], pending_transactions := [] },
        mined)

/-- The body of `validate_chain`'s loop from a given predecessor: each later
block must hash-check against itself and link to the block before it. -/
def validate_chain_loop (H : String → String) : Block → List Block → Bool
  | _, [] => true
  | prev, cur :: rest =>
    if cur.hash ≠ some (cur.calculate_hash H) then false
    else if cur.previous_hash ≠ prev.hash then false
    else validate_chain_loop H cur rest

/-- `Blockchain.validate_chain` (the loop runs over `range(1, len(chain))`, so
chains of length 0 or 1 are vacuously valid). -/
def validate_chain (H : String → String) (chain : List Block) : Bool :=
  match chain with
  | [] => true
  | b :: rest => validate_chain_loop H b rest

/-- `Blockchain.validate_imported_chain` on a list of block objects (given
dicts it first converts them; both endpoints that reach it with dicts go
through `dict_chain_to_objects`, modelled separately).  The loop body is
identical to `validate_chain`'s. -/
def validate_imported_chain (H : String → String) (chain : List Block) : Bool :=
  match chain with
  | [] => true
  | b :: rest => validate_chain_loop H b rest

/-- `Blockchain.replace_chain`. -/
def replace_chain (H : String → String) (bc : Blockchain)
    (new_chain : List Block) : Blockchain × Bool :=
  if bc.chain.length < new_chain.length ∧ validate_imported_chain H new_chain = true then
    ({ bc with chain := new_chain }, true)
  else (bc, false)

/-- `Blockchain.dict_chain_to_objects`. -/
def dict_chain_to_objects (dict_chain : List BlockDict) : List Block :=
  dict_chain.map dictToBlock

/-- blockchain_node.py `receive_block` endpoint: reject when a stored block
already carries the same index; otherwise rebuild the block from the dict and
accept only a hash-consistent direct successor, removing committed
transactions from the pool by id. -/
def receive_block (H : String → String) (bc : Blockchain) (data : BlockDict) :
    Blockchain × Bool :=
  if bc.chain.any fun blk => blk.index = data.index then (bc, false)
  else
    let block := dictToBlock data
    match bc.chain.getLast? with
    | none => (bc, false)
    | some tip =>
      if block.hash = some (block.calculate_hash H) ∧
          block.previous_hash = tip.hash ∧ block.index = bc.chain.length then
        ({ bc with
            chain := bc.chain ++ [block],
            pending_transactions := block.transactions.foldl
              (fun pending tx => pending.filter fun p => p.id ≠ tx.id)
              bc.pending_transactions }, true)
      else (bc, false)

/-- The per-pair condition `validate_chain` checks for each adjacent pair. -/
def validLink (H : String → String) (prev cur : Block) : Prop :=
  cur.hash = some (cur.calculate_hash H) ∧ cur.previous_hash = prev.hash

/-- Concrete sample genesis-like block used by several witnesses. -/
def gBlock : Block :=
  { index := 0, timestamp := 0, transactions := [], previous_hash := some "0",
    miner_address := "genesis", nonce := 0, hash := some "h0", merkle_root := "0" }

/-- Concrete successor of `gBlock` that is hash-consistent when the digest
function is the identity (its block string is `"10h0m0"`). -/
def b1Block : Block :=
  { index := 1, timestamp := 0, transactions := [], previous_hash := some "h0",
    miner_address := "alice", nonce := 0, hash := some "10h0m0", merkle_root := "m" }

/-- A sample two-block ledger state over `gBlock`. -/
def sampleState : Blockchain :=
  { chain := [gBlock], pending_transactions := [], difficulty := 4,
    mining_reward := 50 }

/-- The constant digest used by witnesses that must reach the default
difficulty-4 target. -/
def constHash : String → String := fun _ => "0000"

/-- The reward transaction the witness mining run produces. -/
def rewardTxW : Transaction :=
  { id := "r1", sender := "genesis", recipient := "bob", amount := 50, fee := 0,
    timestamp := 1, signature := some "0000" }

/-- The block the witness mining run produces over `sampleState`. -/
def minedBlkW : Block :=
  { index := 1, timestamp := 2, transactions := [rewardTxW],
    previous_hash := some "h0", miner_address := "bob", nonce := 1,
    hash := some "0000", merkle_root := "0000" }

/-- The ledger state after the witness mining run. -/
def minedStateW : Blockchain :=
  { chain := [gBlock, minedBlkW], pending_transactions := [], difficulty := 4,
    mining_reward := 50 }

/-- A fresh (hash-unset) block used by the C8 witness. -/
def freshBlkW : Block := Block.create constHash 0 0 [] (some "0") "carol"

/-- What mining `freshBlkW` under the constant digest produces. -/
def minedFreshW : Block := { freshBlkW with nonce := 1, hash := some "0000" }

/-- A block that arrives at `mine_block` with a lucky preexisting stored
hash (it already starts with one zero) that does not match its own
recomputation. -/
def luckyBlkW : Block :=
  { index := 1, timestamp := 0, transactions := [], previous_hash := some "p",
    miner_address := "mal", nonce := 0, hash := some "0", merkle_root := "r" }

/-- The validity premise exactly as the claim states it: every block from
index 1 on hash-checks against itself and links to its predecessor. -/
def specValid (H : String → String) (c : List Block) : Prop :=
  ∀ i, (hi : i < c.length) → 1 ≤ i →
    (c.get ⟨i, hi⟩).hash = some ((c.get ⟨i, hi⟩).calculate_hash H) ∧
    (c.get ⟨i, hi⟩).previous_hash
      = (c.get ⟨i - 1, Nat.lt_of_le_of_lt (Nat.pred_le i) hi⟩).hash

/-- `b1Block` in wire form, a valid direct successor of `gBlock` under the
identity digest. -/
def b1Dict : BlockDict := Block.to_dict b1Block

/-- A stored block that sits at chain position 1 but carries index 2 (such a
chain is reachable through `replace_chain`, which never inspects indices). -/
def oddBlock : Block :=
  { index := 2, timestamp := 0, transactions := [], previous_hash := some "h0",
    miner_address := "bob", nonce := 0, hash := some "hx", merkle_root := "q" }

def oddState : Blockchain :=
  { chain := [gBlock, oddBlock], pending_transactions := [], difficulty := 4,
    mining_reward := 50 }

/-- A candidate that satisfies all three of the claim's acceptance conditions
against `oddState` under the identity digest (its block string is
`"20hxm0"`). -/
def oddCand : BlockDict :=
  { index := 2, timestamp := 0, transactions := [], previous_hash := some "hx",
    miner_address := "carol", nonce := 0, hash := some "20hxm0",
    merkle_root := "m" }

/-- The genesis block of `initialBlockchain constHash 0`, spelled out. -/
def genesisW : Block :=
  { index := 0, timestamp := 0, transactions := [], previous_hash := some "0",
    miner_address := "genesis", nonce := 0, hash := some "0000",
    merkle_root := "0" }

/-- The signed 50-coin grant from `"genesis"` to `"alice"`. -/
def txGW : Transaction :=
  { id := "idG", sender := "genesis", recipient := "alice", amount := 50,
    fee := 0, timestamp := 0, signature := some "0000" }

/-- The signed mining reward paid to the miner `"dave"`. -/
def rewardW : Transaction :=
  { id := "rid", sender := "genesis", recipient := "dave", amount := 50,
    fee := 0, timestamp := 1, signature := some "0000" }

/-- The block `"dave"` mines in the witness scenario run. -/
def blkW : Block :=
  { index := 1, timestamp := 2, transactions := [txGW, rewardW],
    previous_hash := some "0000", miner_address := "dave", nonce := 1,
    hash := some "0000", merkle_root := "0000" }

/-- The ledger state after the witness scenario run. -/
def st2W : Blockchain :=
  { chain := [genesisW, blkW], pending_transactions := [], difficulty := 4,
    mining_reward := 50 }

/-- The signed mining reward when `"alice"` mines her own grant. -/
def rewardX : Transaction :=
  { id := "rid", sender := "genesis", recipient := "alice", amount := 50,
    fee := 0, timestamp := 1, signature := some "0000" }

/-- The block `"alice"` mines in the counterexample run. -/
def blkX : Block :=
  { index := 1, timestamp := 2, transactions := [txGW, rewardX],
    previous_hash := some "0000", miner_address := "alice", nonce := 1,
    hash := some "0000", merkle_root := "0000" }

/-- The ledger state after the counterexample run. -/
def st2X : Blockchain :=
  { chain := [genesisW, blkX], pending_transactions := [], difficulty := 4,
    mining_reward := 50 }

/-- Ledger states reachable from the fresh genesis-only state through the
core operations, each applied with arguments that pass its own acceptance
checks (mining steps are those that succeed within their fuel). -/
inductive Reachable (H : String → String) : Blockchain → Prop where
  | init (gts : Int) : Reachable H (initialBlockchain H gts)
  | addTx {bc : Blockchain} (t : Transaction) :
      Reachable H bc → Reachable H (add_transaction H bc t).1
  | mine {bc st' : Blockchain} {blk : Block} (addr rid : String)
      (rts bts : Int) (fuel : Nat) :
      Reachable H bc →
      mine_pending_transactions H bc addr rid rts bts fuel = some (st', blk) →
      Reachable H st'
  | recv {bc : Blockchain} (d : BlockDict) :
      Reachable H bc → Reachable H (receive_block H bc d).1
  | rep {bc : Blockchain} (c : List Block) :
      Reachable H bc → Reachable H (replace_chain H bc c).1

theorem natDigits_lt_ten : ∀ fuel n, ∀ d ∈ natDigits fuel n, d < 10 := by
  intro fuel
  induction fuel with
  | zero => intro n d hd; simp [natDigits] at hd
  | succ f ih =>
    intro n d hd
    cases n with
    | zero => simp [natDigits] at hd
    | succ m =>
      simp only [natDigits, List.mem_cons] at hd
      rcases hd with h | h
      · subst h; exact Nat.mod_lt _ (by norm_num)
      · exact ih _ _ h

theorem fromDigits_natDigits : ∀ fuel n, n ≤ fuel → fromDigits (natDigits fuel n) = n := by
  intro fuel
  induction fuel with
  | zero => intro n hn; interval_cases n; rfl
  | succ f ih =>
    intro n hn
    cases n with
    | zero => rfl
    | succ m =>
      have hdiv : (m + 1) / 10 ≤ f := by
        have := Nat.div_lt_self (Nat.succ_pos m) (by norm_num : 1 < 10)
        omega
      simp only [natDigits, fromDigits, ih _ hdiv]
      omega

theorem digitChar_inj_lt : ∀ a < 10, ∀ b < 10, Nat.digitChar a = Nat.digitChar b → a = b := by
  decide

theorem map_digitChar_inj :
    ∀ (l1 l2 : List Nat), (∀ x ∈ l1, x < 10) → (∀ x ∈ l2, x < 10) →
      l1.map Nat.digitChar = l2.map Nat.digitChar → l1 = l2 := by
  intro l1
  induction l1 with
  | nil => intro l2 _ _ h; cases l2 <;> simp_all
  | cons a t ih =>
    intro l2 h1 h2 h
    cases l2 with
    | nil => simp at h
    | cons b t2 =>
      simp only [List.map_cons, List.cons.injEq] at h
      have ha : a = b :=
        digitChar_inj_lt a (h1 a (by simp)) b (h2 b (by simp)) h.1
      have ht : t = t2 :=
        ih t2 (fun x hx => h1 x (by simp [hx])) (fun x hx => h2 x (by simp [hx])) h.2
      rw [ha, ht]

theorem natStr_injective : Function.Injective natStr := by
  intro a b h
  unfold natStr at h
  by_cases ha : a = 0 <;> by_cases hb : b = 0
  · rw [ha, hb]
  · exfalso
    simp only [ha, if_pos rfl, if_neg hb] at h
    have hdata : List.cons '0' List.nil = (((natDigits b b).map Nat.digitChar).reverse) := by
      have := congrArg String.data h
      simpa using this
    have hrev : (natDigits b b).map Nat.digitChar = ['0'] := by
      have := congrArg List.reverse hdata
      simpa using this.symm
    have : natDigits b b = [0] := by
      refine map_digitChar_inj _ [0] (natDigits_lt_ten _ _) (by simp) ?_
      simpa using hrev
    have hb0 : fromDigits (natDigits b b) = b := fromDigits_natDigits b b le_rfl
    rw [this] at hb0
    simp [fromDigits] at hb0
    exact hb hb0.symm
  · exfalso
    simp only [hb, if_pos rfl, if_neg ha] at h
    have hdata : (((natDigits a a).map Nat.digitChar).reverse) = List.cons '0' List.nil := by
      have := congrArg String.data h
      simpa using this
    have hrev : (natDigits a a).map Nat.digitChar = ['0'] := by
      have := congrArg List.reverse hdata
      simpa using this
    have : natDigits a a = [0] := by
      refine map_digitChar_inj _ [0] (natDigits_lt_ten _ _) (by simp) ?_
      simpa using hrev
    have ha0 : fromDigits (natDigits a a) = a := fromDigits_natDigits a a le_rfl
    rw [this] at ha0
    simp [fromDigits] at ha0
    exact ha ha0.symm
  · simp only [if_neg ha, if_neg hb] at h
    have hdata := congrArg String.data h
    simp only [String.data] at hdata
    have hrev : (natDigits a a).map Nat.digitChar = (natDigits b b).map Nat.digitChar := by
      have := congrArg List.reverse hdata
      simpa using this
    have hd : natDigits a a = natDigits b b :=
      map_digitChar_inj _ _ (natDigits_lt_ten _ _) (natDigits_lt_ten _ _) hrev
    have := congrArg fromDigits hd
    rwa [fromDigits_natDigits a a le_rfl, fromDigits_natDigits b b le_rfl] at this

theorem string_append_left_cancel {s x y : String} (h : s ++ x = s ++ y) : x = y := by
  have hd := congrArg String.data h
  simp only [String.data_append] at hd
  have := List.append_cancel_left hd
  cases x; cases y; exact congrArg String.mk this

theorem merklePairs_length (H : String → String) :
    (l : List String) → (merklePairs H l).length = (l.length + 1) / 2
  | [] => by simp [merklePairs]
  | [a] => by simp [merklePairs]
  | a :: b :: rest => by
    have ih := merklePairs_length H rest
    simp only [merklePairs, List.length_cons, ih]
    omega

theorem merkleLevel_length_lt (H : String → String) (l : List String)
    (h : 2 ≤ l.length) : (merkleLevel H l).length < l.length := by
  unfold merkleLevel
  by_cases hodd : l.length % 2 = 1
  · rw [if_pos hodd, merklePairs_length]
    simp only [List.length_append, List.length_cons, List.length_nil]
    omega
  · rw [if_neg hodd, merklePairs_length]
    omega

theorem validate_chain_loop_iff (H : String → String) :
    ∀ (rest : List Block) (prev : Block),
      validate_chain_loop H prev rest = true ↔ List.Chain (validLink H) prev rest := by
  intro rest
  induction rest with
  | nil => intro prev; simp [validate_chain_loop]
  | cons cur t ih =>
    intro prev
    rw [List.chain_cons, ← ih cur]
    show (if cur.hash ≠ some (cur.calculate_hash H) then false
        else if cur.previous_hash ≠ prev.hash then false
        else validate_chain_loop H cur t) = true ↔ _
    by_cases h1 : cur.hash = some (cur.calculate_hash H)
    · by_cases h2 : cur.previous_hash = prev.hash
      · simp [h1, h2, validLink]
      · simp [h1, h2, validLink]
    · simp [h1, validLink]

theorem validate_chain_iff_chain' (H : String → String) (c : List Block) :
    validate_chain H c = true ↔ List.Chain' (validLink H) c := by
  cases c with
  | nil => simp [validate_chain, List.Chain']
  | cons b rest =>
    show validate_chain_loop H b rest = true ↔ List.Chain (validLink H) b rest
    exact validate_chain_loop_iff H rest b

theorem validate_imported_chain_eq (H : String → String) (c : List Block) :
    validate_imported_chain H c = validate_chain H c := by
  cases c <;> rfl

theorem validate_chain_append_one (H : String → String) {c : List Block}
    {tip blk : Block} (hv : validate_chain H c = true)
    (htip : c.getLast? = some tip)
    (hh : blk.hash = some (blk.calculate_hash H))
    (hp : blk.previous_hash = tip.hash) :
    validate_chain H (c ++ [blk]) = true := by
  rw [validate_chain_iff_chain'] at hv ⊢
  refine List.chain'_append.2 ⟨hv, List.chain'_singleton blk, ?_⟩
  intro x hx y hy
  rw [htip] at hx
  simp only [Option.mem_def, Option.some.injEq] at hx
  simp only [List.head?_cons, Option.mem_def, Option.some.injEq] at hy
  subst hx; subst hy
  exact ⟨hh, hp⟩

/-- `blockString` does not read the `hash` field. -/
theorem blockString_with_hash (b : Block) (h : Option String) :
    blockString { b with hash := h } = blockString b := rfl

/-- Distinct nonces give distinct hash preimages (the other fields fixed). -/
theorem blockString_nonce_ne (b : Block) (n : Nat) (h : n ≠ b.nonce) :
    blockString { b with nonce := n } ≠ blockString b := by
  intro he
  unfold blockString at he
  simp only at he
  exact h (natStr_injective (string_append_left_cancel he))

theorem mine_block_spec (H : String → String) (d : Nat) :
    ∀ (fuel : Nat) (b b' : Block), Block.mine_block H d fuel b = some b' →
      hashMeetsTarget d b'.hash = true ∧
      (b' = b ∨ b'.hash = some (b'.calculate_hash H)) ∧
      b'.index = b.index ∧ b'.timestamp = b.timestamp ∧
      b'.transactions = b.transactions ∧ b'.previous_hash = b.previous_hash ∧
      b'.miner_address = b.miner_address ∧ b'.merkle_root = b.merkle_root := by
  intro fuel
  induction fuel with
  | zero =>
    intro b b' h
    unfold Block.mine_block at h
    split at h
    · cases h
      exact ⟨by assumption, Or.inl rfl, rfl, rfl, rfl, rfl, rfl, rfl⟩
    · cases h
  | succ f ih =>
    intro b b' h
    unfold Block.mine_block at h
    split at h
    · cases h
      exact ⟨by assumption, Or.inl rfl, rfl, rfl, rfl, rfl, rfl, rfl⟩
    · have spec := ih _ _ h
      obtain ⟨hmeet, hself, hidx, hts, htx, hprev, hminer, hmr⟩ := spec
      refine ⟨hmeet, Or.inr ?_, hidx, hts, htx, hprev, hminer, hmr⟩
      rcases hself with rfl | hcalc
      · rfl
      · exact hcalc

/-- A mined block whose hash did not already meet the target ends hash-checked
against its own recomputation. -/
theorem mine_block_fresh_hash (H : String → String) (d fuel : Nat)
    (b b' : Block) (h : Block.mine_block H d fuel b = some b')
    (hfresh : hashMeetsTarget d b.hash = false) :
    b'.hash = some (b'.calculate_hash H) := by
  obtain ⟨hmeet, hself, -⟩ := mine_block_spec H d fuel b b' h
  rcases hself with rfl | hcalc
  · rw [hmeet] at hfresh; cases hfresh
  · exact hcalc

/-- The pool pruning in `receive_block` (a fold of per-transaction filters)
keeps exactly the pending transactions whose id matches none of the block's. -/
theorem foldl_filter_by_id (txs : List Transaction) :
    ∀ pending : List Transaction,
      txs.foldl (fun pending tx => pending.filter fun p => p.id ≠ tx.id) pending
        = pending.filter fun p => txs.all fun tx => p.id ≠ tx.id := by
  induction txs with
  | nil => intro pending; simp
  | cons t ts ih =>
    intro pending
    simp only [List.foldl_cons, ih, List.filter_filter]
    congr 1
    funext p
    simp [List.all_cons, Bool.and_comm]

theorem validate_transaction_iff (bc : Blockchain) (t : Transaction) :
    validate_transaction bc t = true ↔
      (t.sender ≠ t.recipient ∧ 0 < t.amount ∧
        (t.sender = "genesis" ∨ t.amount + t.fee ≤ get_balance bc t.sender)) := by
  unfold validate_transaction
  by_cases h1 : t.sender = t.recipient <;>
    by_cases h2 : t.amount ≤ 0 <;>
      by_cases h3 : t.sender = "genesis" <;>
        by_cases h4 : get_balance bc t.sender < t.amount + t.fee <;>
          simp [h1, h2, h3, h4] <;> omega

/-- C10: a one-block candidate always passes `validate_imported_chain`, and
`validate_chain` accepts every chain of length 0 or 1, because the pairwise
loop starts at index 1 and so never checks block 0 against anything. -/
theorem claim10_block_zero_unchecked :
    ∀ (H : String → String) (b : Block),
      validate_imported_chain H [b] = true ∧
      validate_chain H ([] : List Block) = true ∧
      validate_chain H [b] = true := by
  intro H b
  exact ⟨rfl, rfl, rfl⟩

/-- C7: converting every block of a chain `to_dict` and rebuilding the chain
with `dict_chain_to_objects` reproduces every block and transaction field
exactly, so the recomputed hash of every reconstructed block equals that of
the original. -/
theorem claim7_serialization_roundtrip :
    ∀ (chain : List Block) (H : String → String),
      dict_chain_to_objects (chain.map Block.to_dict) = chain ∧
      (dict_chain_to_objects (chain.map Block.to_dict)).map
          (fun b => b.calculate_hash H)
        = chain.map (fun b => b.calculate_hash H) := by
  intro chain H
  have ht : ∀ t : Transaction, dictToTx t.to_dict = t := fun t => rfl
  have hb : ∀ b : Block, dictToBlock b.to_dict = b := by
    intro b
    simp [dictToBlock, Block.to_dict, List.map_map, Function.comp_def, ht]
  have hchain : dict_chain_to_objects (chain.map Block.to_dict) = chain := by
    simp [dict_chain_to_objects, List.map_map, Function.comp_def, hb]
  exact ⟨hchain, by rw [hchain]⟩

/-- C2: `replace_chain` swaps in the candidate and returns true exactly when
the candidate is strictly longer and passes `validate_imported_chain`; in
every other case the state is unchanged and it returns false. -/
theorem claim2_replace_chain_rule (H : String → String) (bc : Blockchain)
    (new_chain : List Block) :
    (bc.chain.length < new_chain.length ∧ validate_imported_chain H new_chain = true →
      replace_chain H bc new_chain = ({ bc with chain := new_chain }, true)) ∧
    (¬ (bc.chain.length < new_chain.length ∧ validate_imported_chain H new_chain = true) →
      replace_chain H bc new_chain = (bc, false)) ∧
    ((replace_chain H bc new_chain).2 = true ↔
      bc.chain.length < new_chain.length ∧ validate_imported_chain H new_chain = true) := by
  unfold replace_chain
  by_cases h : bc.chain.length < new_chain.length ∧ validate_imported_chain H new_chain = true
  · rw [if_pos h]
    simp [h]
  · rw [if_neg h]
    simp [h]

theorem claim2_replace_chain_rule_witness :
    replace_chain (fun s => s) sampleState [gBlock, b1Block]
      = ({ sampleState with chain := [gBlock, b1Block] }, true) :=
  (claim2_replace_chain_rule (fun s => s) sampleState [gBlock, b1Block]).1
    ⟨by decide, by decide⟩

/-- C4: `add_transaction` accepts (returns true, signs, and appends) exactly
when the sender differs from the recipient, the amount is positive, and -
unless the sender is `"genesis"` - the sender's balance covers amount+fee;
any failing check leaves the whole state (pool, chain, and the transaction's
signature) unchanged and returns false. -/
theorem claim4_add_transaction_rule (H : String → String) (bc : Blockchain)
    (t : Transaction) :
    ((add_transaction H bc t).2 = true ↔
      (t.sender ≠ t.recipient ∧ 0 < t.amount ∧
        (t.sender = "genesis" ∨ t.amount + t.fee ≤ get_balance bc t.sender))) ∧
    ((add_transaction H bc t).2 = true →
      add_transaction H bc t =
        ({ bc with pending_transactions :=
            bc.pending_transactions ++ [t.sign_transaction H] }, true)) ∧
    ((add_transaction H bc t).2 = false → add_transaction H bc t = (bc, false)) := by
  have hv := validate_transaction_iff bc t
  unfold add_transaction
  by_cases h : validate_transaction bc t = true
  · rw [if_pos h]
    exact ⟨by simp [← hv, h], fun _ => rfl, by simp⟩
  · rw [if_neg h]
    exact ⟨by simp [← hv, h], by simp, fun _ => rfl⟩

theorem claim4_add_transaction_rule_witness :
    add_transaction (fun s => s) sampleState
        (Transaction.create "t1" 0 "genesis" "alice" 50 0)
      = ({ sampleState with pending_transactions :=
          sampleState.pending_transactions ++
            [Transaction.sign_transaction (fun s => s)
              (Transaction.create "t1" 0 "genesis" "alice" 50 0)] }, true) :=
  (claim4_add_transaction_rule (fun s => s) sampleState
    (Transaction.create "t1" 0 "genesis" "alice" 50 0)).2.1 (by decide)

/-- Shared specification of a successful `mine_pending_transactions` run. -/
theorem mine_pending_spec (H : String → String) (bc : Blockchain)
    (addr rid : String) (rts bts : Int) (fuel : Nat) (st' : Blockchain)
    (blk : Block)
    (h : mine_pending_transactions H bc addr rid rts bts fuel = some (st', blk)) :
    st'.chain = bc.chain ++ [blk] ∧
    st'.pending_transactions = [] ∧
    st'.difficulty = bc.difficulty ∧
    st'.mining_reward = bc.mining_reward ∧
    blk.index = bc.chain.length ∧
    (∀ tip, bc.chain.getLast? = some tip → blk.previous_hash = tip.hash) ∧
    blk.transactions = bc.pending_transactions ++
      [Transaction.sign_transaction H
        (Transaction.create rid rts "genesis" addr bc.mining_reward 0)] ∧
    blk.miner_address = addr ∧
    blk.hash = some (blk.calculate_hash H) ∧
    strStartsWith (mtarget bc.difficulty) (blk.calculate_hash H) = true := by
  unfold mine_pending_transactions at h
  cases htip : bc.chain.getLast? with
  | none => rw [htip] at h; cases h
  | some tip =>
    rw [htip] at h
    simp only at h
    cases hm : Block.mine_block H bc.difficulty fuel
        (Block.create H bts bc.chain.length
          (bc.pending_transactions ++
            [Transaction.sign_transaction H
              (Transaction.create rid rts "genesis" addr bc.mining_reward 0)])
          tip.hash addr) with
    | none => rw [hm] at h; cases h
    | some mined =>
      rw [hm] at h
      simp only [Option.some.injEq, Prod.mk.injEq] at h
      obtain ⟨hst, hblk⟩ := h
      subst hst
      subst hblk
      obtain ⟨hmeet, -, hidx, -, htx, hprev, hminer, -⟩ :=
        mine_block_spec H bc.difficulty fuel _ mined hm
      have hhash : mined.hash = some (mined.calculate_hash H) :=
        mine_block_fresh_hash H bc.difficulty fuel _ mined hm rfl
      refine ⟨rfl, rfl, rfl, rfl, hidx, ?_, htx, hminer, hhash, ?_⟩
      · intro tip' htip'
        injection htip' with h2
        subst h2
        exact hprev
      · rw [hhash] at hmeet
        exact hmeet

/-- C3: on success, `mine_pending_transactions` appends exactly one block to
the chain, built at index = old chain length over pool+reward linked to the
tip, mined to the configured difficulty, and clears the pool; the reward
transaction sent to the miner carries sender `"genesis"` and amount
`mining_reward`. -/
theorem claim3_mine_pending_rule (H : String → String) (bc : Blockchain)
    (addr rid : String) (rts bts : Int) (fuel : Nat) (st' : Blockchain)
    (blk : Block)
    (h : mine_pending_transactions H bc addr rid rts bts fuel = some (st', blk)) :
    st'.chain = bc.chain ++ [blk] ∧
    st'.pending_transactions = [] ∧
    st'.difficulty = bc.difficulty ∧
    st'.mining_reward = bc.mining_reward ∧
    blk.index = bc.chain.length ∧
    (∀ tip, bc.chain.getLast? = some tip → blk.previous_hash = tip.hash) ∧
    blk.transactions = bc.pending_transactions ++
      [Transaction.sign_transaction H
        (Transaction.create rid rts "genesis" addr bc.mining_reward 0)] ∧
    blk.miner_address = addr ∧
    blk.hash = some (blk.calculate_hash H) ∧
    strStartsWith (mtarget bc.difficulty) (blk.calculate_hash H) = true :=
  mine_pending_spec H bc addr rid rts bts fuel st' blk h

theorem claim3_mine_pending_rule_witness :
    minedStateW.pending_transactions = [] ∧
    minedStateW.chain = sampleState.chain ++ [minedBlkW] ∧
    minedBlkW.index = sampleState.chain.length :=
  have spec := claim3_mine_pending_rule constHash sampleState "bob" "r1" 1 2 1
    minedStateW minedBlkW (by decide)
  ⟨spec.2.1, spec.1, spec.2.2.2.2.1⟩

/-- C8 (amended): whenever `mine_block(d)` terminates, the stored hash starts
with `d` zero symbols and only nonce and hash were mutated; and whenever the
stored hash did not already meet the target on entry - in particular for
every freshly constructed block, whose hash is unset - the stored hash also
equals the recomputation from (index, timestamp, previous_hash, merkle_root,
nonce).  (A block arriving with a lucky preexisting hash is returned
unchanged, so the recomputation clause needs that proviso.) -/
theorem claim8_mine_block_rule (H : String → String) (d fuel : Nat)
    (b b' : Block) (h : Block.mine_block H d fuel b = some b') :
    (∃ hs, b'.hash = some hs ∧ strStartsWith (mtarget d) hs = true) ∧
    (hashMeetsTarget d b.hash = false → b'.hash = some (b'.calculate_hash H)) ∧
    (b'.index = b.index ∧ b'.timestamp = b.timestamp ∧
      b'.transactions = b.transactions ∧ b'.previous_hash = b.previous_hash ∧
      b'.miner_address = b.miner_address ∧ b'.merkle_root = b.merkle_root) := by
  obtain ⟨hmeet, -, hidx, hts, htx, hprev, hminer, hmr⟩ :=
    mine_block_spec H d fuel b b' h
  refine ⟨?_, fun hf => mine_block_fresh_hash H d fuel b b' h hf,
    hidx, hts, htx, hprev, hminer, hmr⟩
  cases hh : b'.hash with
  | none => rw [hh] at hmeet; simp [hashMeetsTarget] at hmeet
  | some hs =>
    rw [hh] at hmeet
    exact ⟨hs, rfl, hmeet⟩

theorem claim8_mine_block_rule_witness :
    (∃ hs, minedFreshW.hash = some hs ∧ strStartsWith (mtarget 4) hs = true) ∧
    minedFreshW.hash = some (minedFreshW.calculate_hash constHash) :=
  have spec := claim8_mine_block_rule constHash 4 1 freshBlkW minedFreshW (by decide)
  ⟨spec.1, spec.2.1 (by decide)⟩

/-- C8 counterexample: on `luckyBlkW` at difficulty 1, `mine_block`
terminates immediately and returns the block unchanged, with a stored hash
that does NOT equal the recomputation - refuting the claim's "for every
block" recomputation clause. -/
theorem claim8_counterexample :
    Block.mine_block (fun s => s) 1 5 luckyBlkW = some luckyBlkW ∧
    luckyBlkW.hash ≠ some (luckyBlkW.calculate_hash (fun s => s)) :=
  ⟨by decide, by decide⟩

theorem specValid_iff_chain' (H : String → String) (c : List Block) :
    specValid H c ↔ List.Chain' (validLink H) c := by
  rw [List.chain'_iff_get]
  constructor
  · intro hs i hlt
    have h1 : i + 1 < c.length := by omega
    have hi := hs (i + 1) h1 (by omega)
    exact ⟨hi.1, hi.2⟩
  · intro hc i hi h1
    obtain ⟨j, rfl⟩ : ∃ j, i = j + 1 := ⟨i - 1, by omega⟩
    have hj : j < c.length - 1 := by omega
    have hl := hc j hj
    exact ⟨hl.1, hl.2⟩

theorem validate_chain_eq_false_of_bad_pair (H : String → String)
    (l : List Block) (k : Nat) (hk : k + 1 < l.length)
    (hbad : ¬ validLink H (l.get ⟨k, by omega⟩) (l.get ⟨k + 1, hk⟩)) :
    validate_chain H l = false := by
  rw [Bool.eq_false_iff]
  intro hvt
  rw [validate_chain_iff_chain', List.chain'_iff_get] at hvt
  exact hbad (hvt k (by omega))

theorem get_set_self (l : List Block) (i : Nat) (a : Block)
    (h : i < (l.set i a).length) : (l.set i a).get ⟨i, h⟩ = a := by
  simp [List.get_eq_getElem]

theorem get_set_other (l : List Block) (i j : Nat) (a : Block) (hij : i ≠ j)
    (h : j < (l.set i a).length) :
    (l.set i a).get ⟨j, h⟩ = l.get ⟨j, by simpa using h⟩ := by
  simp [List.get_eq_getElem, List.getElem_set_ne hij]

/-- C1 (amended): every chain satisfying the claim's pairwise validity
premise passes `validate_chain`; and (given an injective digest) mutating the
stored hash, nonce, or previous_hash of any block at index i ≥ 1 flips
`validate_chain` to false, as does mutating block 0's stored hash when the
chain has at least two blocks.  (Mutations of block 0's nonce or
previous_hash go undetected - see the counterexample - which is why the
index-0 case covers only the hash field.) -/
theorem claim1_validate_chain_tamper (H : String → String)
    (hinj : Function.Injective H) (c : List Block) (hv : specValid H c) :
    validate_chain H c = true ∧
    (∀ i, (hi : i < c.length) → 1 ≤ i →
      (∀ h, h ≠ (c.get ⟨i, hi⟩).hash →
        validate_chain H (c.set i { c.get ⟨i, hi⟩ with hash := h }) = false) ∧
      (∀ n, n ≠ (c.get ⟨i, hi⟩).nonce →
        validate_chain H (c.set i { c.get ⟨i, hi⟩ with nonce := n }) = false) ∧
      (∀ p, p ≠ (c.get ⟨i, hi⟩).previous_hash →
        validate_chain H (c.set i { c.get ⟨i, hi⟩ with previous_hash := p }) = false)) ∧
    (∀ h, (hlen : 2 ≤ c.length) → h ≠ (c.get ⟨0, by omega⟩).hash →
      validate_chain H (c.set 0 { c.get ⟨0, by omega⟩ with hash := h }) = false) := by
  refine ⟨?_, ?_, ?_⟩
  · rw [validate_chain_iff_chain']
    exact (specValid_iff_chain' H c).1 hv
  · intro i hi h1
    obtain ⟨j, rfl⟩ : ∃ j, i = j + 1 := ⟨i - 1, by omega⟩
    have horig := hv (j + 1) hi (by omega)
    refine ⟨?_, ?_, ?_⟩
    · intro h hne
      refine validate_chain_eq_false_of_bad_pair H _ j (by simpa using hi) ?_
      rw [get_set_self]
      intro hlink
      have hcalc : Block.calculate_hash { c.get ⟨j + 1, hi⟩ with hash := h } H
          = Block.calculate_hash (c.get ⟨j + 1, hi⟩) H := rfl
      have := hlink.1
      simp only [hcalc] at this
      rw [← horig.1] at this
      exact hne this
    · intro n hne
      refine validate_chain_eq_false_of_bad_pair H _ j (by simpa using hi) ?_
      rw [get_set_self]
      intro hlink
      have := hlink.1
      have hstr : blockString { c.get ⟨j + 1, hi⟩ with nonce := n }
          ≠ blockString (c.get ⟨j + 1, hi⟩) :=
        blockString_nonce_ne (c.get ⟨j + 1, hi⟩) n hne
      have hhash : ({ c.get ⟨j + 1, hi⟩ with nonce := n } : Block).hash
          = (c.get ⟨j + 1, hi⟩).hash := rfl
      rw [hhash, horig.1] at this
      have : (c.get ⟨j + 1, hi⟩).calculate_hash H
          = Block.calculate_hash { c.get ⟨j + 1, hi⟩ with nonce := n } H :=
        Option.some.inj this
      exact hstr (hinj this.symm)
    · intro p hne
      refine validate_chain_eq_false_of_bad_pair H _ j (by simpa using hi) ?_
      rw [get_set_self, get_set_other _ _ _ _ (by omega)]
      intro hlink
      have := hlink.2
      simp only at this
      rw [horig.2] at hne
      exact hne this
  · intro h hlen hne
    refine validate_chain_eq_false_of_bad_pair H _ 0 (by simpa using hlen) ?_
    rw [get_set_self, get_set_other _ _ _ _ (by omega)]
    intro hlink
    have h1 := hv 1 (by omega) (by omega)
    have := hlink.2
    rw [h1.2] at this
    exact hne this.symm

/-- The sample two-block chain satisfies the claim's validity premise under
the identity digest. -/
theorem sampleChain_specValid : specValid (fun s => s) [gBlock, b1Block] := by
  intro i hi h1
  match i, hi, h1 with
  | 1, _, _ => exact ⟨rfl, rfl⟩

theorem claim1_validate_chain_tamper_witness :
    validate_chain (fun s => s) [gBlock, b1Block] = true ∧
    validate_chain (fun s => s)
      ([gBlock, b1Block].set 1 { b1Block with nonce := 7 }) = false := by
  have spec := claim1_validate_chain_tamper (fun s => s) (fun a b h => h)
    [gBlock, b1Block] sampleChain_specValid
  refine ⟨spec.1, ?_⟩
  exact (spec.2.1 1 (by decide) (by decide)).2.1 7 (by decide)

/-- C1 counterexample: the claim as stated says mutating ANY single block's
nonce breaks validation, but mutating block 0's nonce in a valid two-block
chain leaves `validate_chain` true (block 0 is never hash-checked). -/
theorem claim1_counterexample :
    ¬ (∀ (H : String → String), Function.Injective H →
        ∀ c : List Block, specValid H c →
          ∀ i, (hi : i < c.length) → ∀ n, n ≠ (c.get ⟨i, hi⟩).nonce →
            validate_chain H (c.set i { c.get ⟨i, hi⟩ with nonce := n }) = false) := by
  intro hclaim
  have := hclaim (fun s => s) (fun a b h => h) [gBlock, b1Block]
    sampleChain_specValid 0 (by decide) 7 (by decide)
  exact absurd this (by decide)

/-- `receive_block` rejects (state untouched) whenever some stored block
already carries the candidate's index. -/
theorem receive_block_dup_reject (H : String → String) (bc : Blockchain)
    (data : BlockDict) (hmem : ∃ b ∈ bc.chain, b.index = data.index) :
    receive_block H bc data = (bc, false) := by
  have hguard : (bc.chain.any fun blk => blk.index = data.index) = true := by
    rw [List.any_eq_true]
    obtain ⟨b, hb, he⟩ := hmem
    exact ⟨b, hb, by simpa using he⟩
  unfold receive_block
  rw [if_pos hguard]

/-- C6 (amended): with a non-empty chain, `receive_block` appends the
candidate exactly when NO stored block already carries its index AND the
candidate hash-checks against itself, links to the tip, and sits at index =
chain length; when every stored block's index is below the chain length (as
in every normally formed chain) the duplicate-index guard is subsumed and
acceptance reduces to the claim's three conditions.  On acceptance the pool
keeps exactly the pending transactions whose id matches none in the block;
on rejection the state is untouched; and a second receipt of the block just
accepted is always rejected with the state unchanged. -/
theorem claim6_receive_block_rule (H : String → String) (bc : Blockchain)
    (data : BlockDict) (tip : Block) (htip : bc.chain.getLast? = some tip) :
    ((receive_block H bc data).2 = true ↔
      ((∀ b ∈ bc.chain, b.index ≠ data.index) ∧
        (dictToBlock data).hash = some ((dictToBlock data).calculate_hash H) ∧
        (dictToBlock data).previous_hash = tip.hash ∧
        data.index = bc.chain.length)) ∧
    ((receive_block H bc data).2 = true →
      (receive_block H bc data).1.chain = bc.chain ++ [dictToBlock data] ∧
      (receive_block H bc data).1.pending_transactions
        = bc.pending_transactions.filter
            fun p => (dictToBlock data).transactions.all fun tx => p.id ≠ tx.id) ∧
    ((receive_block H bc data).2 = false → (receive_block H bc data).1 = bc) ∧
    ((∀ b ∈ bc.chain, b.index < bc.chain.length) →
      ((receive_block H bc data).2 = true ↔
        ((dictToBlock data).hash = some ((dictToBlock data).calculate_hash H) ∧
          (dictToBlock data).previous_hash = tip.hash ∧
          data.index = bc.chain.length))) ∧
    ((receive_block H bc data).2 = true →
      receive_block H (receive_block H bc data).1 data
        = ((receive_block H bc data).1, false)) := by
  have hidx : (dictToBlock data).index = data.index := rfl
  by_cases hdup : (bc.chain.any fun blk => blk.index = data.index) = true
  · have hnodup : ¬ (∀ b ∈ bc.chain, b.index ≠ data.index) := by
      simp only [List.any_eq_true, decide_eq_true_eq] at hdup
      obtain ⟨b, hb, he⟩ := hdup
      intro hall
      exact hall b hb he
    have hres : receive_block H bc data = (bc, false) := by
      unfold receive_block
      rw [if_pos hdup]
    rw [hres]
    refine ⟨by simp [hnodup], by simp, fun _ => rfl, ?_, by simp⟩
    intro hbound
    simp only [Bool.false_eq_true, false_iff]
    rintro ⟨-, -, hlen⟩
    simp only [List.any_eq_true, decide_eq_true_eq] at hdup
    obtain ⟨b, hb, he⟩ := hdup
    have := hbound b hb
    omega
  · have hnodup : ∀ b ∈ bc.chain, b.index ≠ data.index := by
      intro b hb he
      exact hdup (List.any_eq_true.2 ⟨b, hb, by simpa using he⟩)
    by_cases hcond : (dictToBlock data).hash = some ((dictToBlock data).calculate_hash H) ∧
        (dictToBlock data).previous_hash = tip.hash ∧
        (dictToBlock data).index = bc.chain.length
    · have hres : receive_block H bc data
          = ({ bc with
              chain := bc.chain ++ [dictToBlock data],
              pending_transactions := (dictToBlock data).transactions.foldl
                (fun pending tx => pending.filter fun p => p.id ≠ tx.id)
                bc.pending_transactions }, true) := by
        unfold receive_block
        rw [if_neg hdup, htip]
        simp only [if_pos hcond]
      rw [hres]
      refine ⟨?_, fun _ => ⟨rfl, foldl_filter_by_id _ _⟩, by simp, ?_, ?_⟩
      · exact ⟨fun _ => ⟨hnodup, hcond.1, hcond.2.1, hidx ▸ hcond.2.2⟩, fun _ => rfl⟩
      · intro hbound
        exact ⟨fun _ => ⟨hcond.1, hcond.2.1, hidx ▸ hcond.2.2⟩, fun _ => rfl⟩
      · intro hacc
        apply receive_block_dup_reject
        exact ⟨dictToBlock data, by simp, rfl⟩
    · have hres : receive_block H bc data = (bc, false) := by
        unfold receive_block
        rw [if_neg hdup, htip]
        simp only [if_neg hcond]
      rw [hres]
      refine ⟨?_, by simp, fun _ => rfl, ?_, by simp⟩
      · simp only [Bool.false_eq_true, false_iff]
        rintro ⟨-, h1, h2, h3⟩
        exact hcond ⟨h1, h2, hidx ▸ h3⟩
      · intro hbound
        simp only [Bool.false_eq_true, false_iff]
        rintro ⟨h1, h2, h3⟩
        exact hcond ⟨h1, h2, hidx ▸ h3⟩

theorem claim6_receive_block_rule_witness :
    (receive_block (fun s => s) sampleState b1Dict).2 = true ∧
    receive_block (fun s => s) (receive_block (fun s => s) sampleState b1Dict).1 b1Dict
      = ((receive_block (fun s => s) sampleState b1Dict).1, false) := by
  have spec := claim6_receive_block_rule (fun s => s) sampleState b1Dict gBlock rfl
  have hacc : (receive_block (fun s => s) sampleState b1Dict).2 = true :=
    (spec.2.2.2.1 (by decide)).2 ⟨by decide, by decide, by decide⟩
  exact ⟨hacc, spec.2.2.2.2 hacc⟩

/-- C6 counterexample: `oddCand` hash-checks, links to the tip, and sits at
index = chain length, yet `receive_block` rejects it, because the stored
block `oddBlock` already carries index 2 - refuting the claim's "if and only
if". -/
theorem claim6_counterexample :
    (dictToBlock oddCand).hash
        = some ((dictToBlock oddCand).calculate_hash (fun s => s)) ∧
    oddState.chain.getLast? = some oddBlock ∧
    (dictToBlock oddCand).previous_hash = oddBlock.hash ∧
    oddCand.index = oddState.chain.length ∧
    receive_block (fun s => s) oddState oddCand = (oddState, false) :=
  ⟨by decide, by decide, by decide, by decide, by decide⟩

/-- Any non-genesis address has balance zero on the genesis-only chain. -/
theorem initial_balance (H : String → String) (gts : Int) (A : String)
    (hA : A ≠ "genesis") : get_balance (initialBlockchain H gts) A = 0 := by
  simp [get_balance, initialBlockchain, create_genesis_block, Block.create,
    Ne.symm hA]

/-- C5 (amended): from the genesis-only state, a 10-coin spend by a
non-genesis sender with balance 0 is rejected with no state change; a
50-coin grant from `"genesis"` is accepted; and after mining, the chain
gained exactly the mined block, the pool is empty, and A's balance is 50
when A is not the miner but 50 + TWICE the mining reward when A is the
miner (the reward transaction credits `mining_reward` once and
`get_balance` credits the block's miner another `mining_reward` on top). -/
theorem claim5_genesis_scenario (H : String → String)
    (A B miner idA idG rid : String) (tsA tsG rts bts gts : Int) (fuel : Nat)
    (st2 : Blockchain) (blk : Block) (hA : A ≠ "genesis")
    (hmine : mine_pending_transactions H
        ((add_transaction H (initialBlockchain H gts)
          (Transaction.create idG tsG "genesis" A 50 0)).1)
        miner rid rts bts fuel = some (st2, blk)) :
    add_transaction H (initialBlockchain H gts)
        (Transaction.create idA tsA A B 10 0)
      = (initialBlockchain H gts, false) ∧
    (add_transaction H (initialBlockchain H gts)
        (Transaction.create idG tsG "genesis" A 50 0)).2 = true ∧
    st2.chain = (initialBlockchain H gts).chain ++ [blk] ∧
    st2.pending_transactions = [] ∧
    (A ≠ miner → get_balance st2 A = 50) ∧
    (A = miner → get_balance st2 A = 50 + 2 * st2.mining_reward) := by
  have hbal0 : get_balance (initialBlockchain H gts) A = 0 :=
    initial_balance H gts A hA
  have hvA : validate_transaction (initialBlockchain H gts)
      (Transaction.create idA tsA A B 10 0) = false := by
    unfold validate_transaction
    by_cases hAB : A = B
    · simp [Transaction.create, hAB]
    · simp [Transaction.create, hAB, hA, hbal0]
  have hrej : add_transaction H (initialBlockchain H gts)
      (Transaction.create idA tsA A B 10 0)
      = (initialBlockchain H gts, false) := by
    unfold add_transaction
    rw [if_neg (by simp [hvA])]
  have hvG : validate_transaction (initialBlockchain H gts)
      (Transaction.create idG tsG "genesis" A 50 0) = true := by
    unfold validate_transaction
    simp [Transaction.create, Ne.symm hA]
  have hadd : add_transaction H (initialBlockchain H gts)
      (Transaction.create idG tsG "genesis" A 50 0)
      = ({ initialBlockchain H gts with pending_transactions :=
          (initialBlockchain H gts).pending_transactions ++
            [Transaction.sign_transaction H
              (Transaction.create idG tsG "genesis" A 50 0)] }, true) := by
    unfold add_transaction
    rw [if_pos hvG]
  rw [hadd] at hmine
  obtain ⟨hc, hp, hd, hr, hidx, htipprev, htx, hminer, hh, hpow⟩ :=
    mine_pending_spec H _ miner rid rts bts fuel st2 blk hmine
  refine ⟨hrej, by rw [hadd], hc, hp, ?_, ?_⟩
  · intro hm
    obtain ⟨ch, pe, di, re⟩ := st2
    simp only at hc hp hd hr
    subst hc; subst hp; subst hd; subst hr
    simp only [get_balance, initialBlockchain, create_genesis_block,
      Block.create, List.cons_append, List.nil_append, List.foldl_cons,
      List.foldl_nil, htx, hminer, Transaction.sign_transaction,
      Transaction.create]
    simp [Ne.symm hA, Ne.symm hm]
  · intro hm
    subst hm
    obtain ⟨ch, pe, di, re⟩ := st2
    simp only at hc hp hd hr
    subst hc; subst hp; subst hd; subst hr
    simp only [get_balance, initialBlockchain, create_genesis_block,
      Block.create, List.cons_append, List.nil_append, List.foldl_cons,
      List.foldl_nil, htx, hminer, Transaction.sign_transaction,
      Transaction.create]
    simp [Ne.symm hA]

theorem claim5_genesis_scenario_witness :
    add_transaction constHash (initialBlockchain constHash 0)
        (Transaction.create "idA" 0 "alice" "bo" 10 0)
      = (initialBlockchain constHash 0, false) ∧
    st2W.pending_transactions = [] ∧
    get_balance st2W "alice" = 50 := by
  have spec := claim5_genesis_scenario constHash "alice" "bo" "dave" "idA"
    "idG" "rid" 0 0 1 2 0 1 st2W blkW (by decide) (by decide)
  exact ⟨spec.1, spec.2.2.2.1, spec.2.2.2.2.1 (by decide)⟩

/-- C5 counterexample: when A ("alice") is herself the miner, her balance
after mining the 50-coin grant is 150, not the claimed 50 + mining_reward
= 100: the reward transaction credits 50 and `get_balance` credits the
block's miner another 50. -/
theorem claim5_counterexample :
    mine_pending_transactions constHash
        ((add_transaction constHash (initialBlockchain constHash 0)
          (Transaction.create "idG" 0 "genesis" "alice" 50 0)).1)
        "alice" "rid" 1 2 1 = some (st2X, blkX) ∧
    st2X.mining_reward = 50 ∧
    get_balance st2X "alice" = 150 ∧
    get_balance st2X "alice" ≠ 50 + st2X.mining_reward :=
  ⟨by decide, by decide, by decide, by decide⟩

/-- `receive_block` preserves chain validity. -/
theorem receive_block_preserves_valid (H : String → String) (bc : Blockchain)
    (d : BlockDict) (hv : validate_chain H bc.chain = true) :
    validate_chain H (receive_block H bc d).1.chain = true := by
  by_cases hdup : (bc.chain.any fun blk => blk.index = d.index) = true
  · rw [receive_block_dup_reject H bc d]
    · exact hv
    · simp only [List.any_eq_true, decide_eq_true_eq] at hdup
      exact hdup
  · cases htip : bc.chain.getLast? with
    | none =>
      have : receive_block H bc d = (bc, false) := by
        unfold receive_block
        rw [if_neg hdup, htip]
      rw [this]
      exact hv
    | some tip =>
      by_cases hcond : (dictToBlock d).hash
            = some ((dictToBlock d).calculate_hash H) ∧
          (dictToBlock d).previous_hash = tip.hash ∧
          (dictToBlock d).index = bc.chain.length
      · have : (receive_block H bc d).1.chain = bc.chain ++ [dictToBlock d] := by
          unfold receive_block
          rw [if_neg hdup, htip]
          simp only [if_pos hcond]
        rw [this]
        exact validate_chain_append_one H hv htip hcond.1 hcond.2.1
      · have : receive_block H bc d = (bc, false) := by
          unfold receive_block
          rw [if_neg hdup, htip]
          simp only [if_neg hcond]
        rw [this]
        exact hv

/-- C9: every reachable ledger state passes `validate_chain`. -/
theorem claim9_reachable_valid (H : String → String) (bc : Blockchain)
    (h : Reachable H bc) : validate_chain H bc.chain = true := by
  induction h with
  | init gts => rfl
  | @addTx bc t hr ih =>
    by_cases hvt : validate_transaction bc t = true
    · simpa [add_transaction, hvt] using ih
    · simpa [add_transaction, hvt] using ih
  | @mine bc st' blk addr rid rts bts fuel hr hm ih =>
    obtain ⟨hc, -, -, -, -, hprev, -, -, hh, -⟩ :=
      mine_pending_spec H bc addr rid rts bts fuel st' blk hm
    cases htip : bc.chain.getLast? with
    | none => simp [mine_pending_transactions, htip] at hm
    | some tip =>
      rw [hc]
      exact validate_chain_append_one H ih htip hh (hprev tip htip)
  | @recv bc d hr ih => exact receive_block_preserves_valid H bc d ih
  | @rep bc c hr ih =>
    by_cases hrep : bc.chain.length < c.length ∧
        validate_imported_chain H c = true
    · rw [replace_chain, if_pos hrep]
      rw [← validate_imported_chain_eq]
      exact hrep.2
    · rw [replace_chain, if_neg hrep]
      exact ih

theorem claim9_reachable_valid_witness :
    validate_chain constHash (initialBlockchain constHash 0).chain = true :=
  claim9_reachable_valid constHash (initialBlockchain constHash 0)
    (Reachable.init 0)

end BlockchainModel
